import Mathlib

/-!
# Definition-list plugin: shallow embedding

Embedding of the final iteration of the plugin in `src/main.ts`
(the live-preview classifier/decoration builder `buildDecorations`
and the reading-mode post-processor `definitionListPostProcessor`).
Lines of text are modelled as lists of characters; JavaScript string
and regex primitives used by the source are embedded explicitly.
-/

namespace DefList

/-- A line of text, as a list of characters. -/
abbrev Line := List Char

/-- Coerce a Lean string literal to a `Line` (for concrete examples). -/
def str (s : String) : Line := s.data

/-- The character class matched by `\s` in a JavaScript regex, and the set
stripped by `String.prototype.trim`: ASCII whitespace, NBSP, the Unicode
space separators, the line separators, and the BOM. -/
def isJsSpace (c : Char) : Bool :=
  c = ' ' || c = '\t' || c = '\n' || c.val = 0x0B || c.val = 0x0C || c = '\r' ||
  c.val = 0xA0 || c.val = 0x1680 || (0x2000 ≤ c.val && c.val ≤ 0x200A) ||
  c.val = 0x2028 || c.val = 0x2029 || c.val = 0x202F || c.val = 0x205F ||
  c.val = 0x3000 || c.val = 0xFEFF

/-- Line terminators, the characters NOT matched by `.` in a JavaScript regex. -/
def isLineTerminator (c : Char) : Bool :=
  c = '\n' || c = '\r' || c.val = 0x2028 || c.val = 0x2029

/-- Left part of JavaScript `trim()`. -/
def jsTrimLeft (l : Line) : Line := l.dropWhile isJsSpace

/-- Right part of JavaScript `trim()`. -/
def jsTrimRight (l : Line) : Line := (l.reverse.dropWhile isJsSpace).reverse

/-- JavaScript `String.prototype.trim`. -/
def jsTrim (l : Line) : Line := jsTrimRight (jsTrimLeft l)

/-- JavaScript `startsWith`. -/
def startsWithStr (p : String) (l : Line) : Bool := p.data.isPrefixOf l

/-- The definition-marker characters `[:~]`. -/
def isMarkerChar (c : Char) : Bool := c = ':' || c = '~'

/-- The test `lineText.match(/^(\s*)([:~])\s/)` from the live-preview
classifier (src/main.ts, `buildDecorations`): an arbitrary run of leading
whitespace, a marker character, then one whitespace character. Returns the
captured groups (indent, marker). -/
def matchDef (l : Line) : Option (Line × Char) :=
  let ind := l.takeWhile isJsSpace
  match l.dropWhile isJsSpace with
  | m :: c :: _ => if isMarkerChar m && isJsSpace c then some (ind, m) else none
  | _ => none

/-- The test `nextLine.trim().match(/^(\s{0,2})([:~])\s/)`: as `matchDef`
but with at most two characters of leading whitespace (the regex backtracks
only through whitespace, which is never a marker, so the match succeeds
exactly when the full leading-whitespace run has length at most two). -/
def matchDef02 (l : Line) : Option (Line × Char) :=
  match matchDef l with
  | some (ind, m) => if ind.length ≤ 2 then some (ind, m) else none
  | none => none

/-- The test `line.match(/^(\s*)([:~])\s(.+)/)` from the reading-mode
post-processor: indent, marker, one whitespace character, then a non-empty
body of non-line-terminator characters (`.` excludes line terminators).
Returns (indent, marker, body). -/
def matchDef3 (l : Line) : Option (Line × Char × Line) :=
  let ind := l.takeWhile isJsSpace
  match l.dropWhile isJsSpace with
  | m :: c :: rest =>
    if isMarkerChar m && isJsSpace c then
      let body := rest.takeWhile (fun ch => !isLineTerminator ch)
      if body.isEmpty then none else some (ind, m, body)
    else none
  | _ => none

/-- `content.match(/^#+\s/)`: one or more `#` then a whitespace character. -/
def matchesHeading (l : Line) : Bool :=
  match l with
  | '#' :: rest =>
    match rest.dropWhile (fun c => c = '#') with
    | c :: _ => isJsSpace c
    | [] => false
  | _ => false

/-- `content.match(/^\s*(-|\d+\.)\s/)`: optional whitespace, then either a
dash or a digit run followed by a dot, then a whitespace character. -/
def matchesListItem (l : Line) : Bool :=
  let r := l.dropWhile isJsSpace
  (match r with
   | '-' :: c :: _ => isJsSpace c
   | _ => false) ||
  (!(r.takeWhile Char.isDigit).isEmpty &&
   (match r.dropWhile Char.isDigit with
    | '.' :: c :: _ => isJsSpace c
    | _ => false))

/-- `content.match(/^(-{3,}|\*{3,}|_{3,})/)`: a horizontal rule start. -/
def matchesHr (l : Line) : Bool :=
  startsWithStr "---" l || startsWithStr "***" l || startsWithStr "___" l

/-- Substring containment, as JavaScript `String.prototype.includes`. -/
def containsSubstr (needle : Line) : Line → Bool
  | [] => needle.isEmpty
  | c :: rest => needle.isPrefixOf (c :: rest) || containsSubstr needle rest

/-- The footnote-backreference markup tested with `includes` by the
post-processor. -/
def footnoteBackref : Line := str "class=\x22footnote-backref footnote-link\x22"

/-- The `isNotTerm` exclusion predicate of the live-preview classifier
(src/main.ts, inside `buildDecorations`): heading, list item, image,
horizontal rule, footnote, table, math block, or link reference. -/
def isNotTermC (content : Line) : Bool :=
  matchesHeading content ||
  matchesListItem content ||
  startsWithStr "![" content ||
  matchesHr content ||
  startsWithStr "[^" content ||
  startsWithStr "|" content ||
  startsWithStr "$$" content ||
  startsWithStr "^" content

/-- The `isNotTerm` exclusion predicate of the reading-mode post-processor:
as the classifier's, plus blockquote, rendered image tags, and embedded
footnote-backreference markup. -/
def isNotTermR (content : Line) : Bool :=
  matchesHeading content ||
  matchesListItem content ||
  startsWithStr ">" content ||
  startsWithStr "<img" content ||
  matchesHr content ||
  startsWithStr "[^" content ||
  containsSubstr footnoteBackref content ||
  startsWithStr "|" content ||
  startsWithStr "$$" content ||
  startsWithStr "^" content

/-! ## Live-preview classifier and decoration builder -/

/-- The role the classification grammar assigns to a line. -/
inductive LineRole where
  | other
  | term
  | definition (indent : Line) (marker : Char)
deriving DecidableEq, Repr

/-- Whether a role is `definition`. -/
def LineRole.isDef : LineRole → Bool
  | .definition _ _ => true
  | _ => false

/-- The style/visibility directive kinds the annotation pass can speak
about: the line classes and marker visibility marks produced by
`buildDecorations`, plus the `mark-margin-reserve` kind named by the
specification's data model. -/
inductive DirKind where
  | lineDT
  | lineDDReg
  | lineDDIndented
  | markVisibleMarker
  | markHiddenMarker
  | markMarginReserve
deriving DecidableEq, Repr

/-- A position-tagged directive `(from, to, kind)`. -/
structure Directive where
  lo : Nat
  hi : Nat
  kind : DirKind
deriving DecidableEq, Repr

/-- The per-pass mutable flags of `buildDecorations`. -/
structure CState where
  inCodeBlock : Bool
  lastLineWasTerm : Bool
  lastLineWasDefinition : Bool
deriving DecidableEq, Repr

/-- A selection: a list of cursor ranges `(from, to)`. -/
abbrev Sel := List (Nat × Nat)

/-- `lineText.trim().startsWith(3 backticks)` — a code-fence delimiter. -/
def isFenceLine (l : Line) : Bool := startsWithStr "```" (jsTrim l)

/-- The first element of a list of lines, or the empty line: the source's
`i < doc.lines ? doc.line(i + 1).text : ` empty-string lookahead. -/
def headOrNil : List Line → Line
  | [] => []
  | l :: _ => l

/-- The `else if`/`else` tail of the `buildDecorations` loop body: the term
lookahead (`isNextLineDefinition && !isNotTerm(trimmedLineText)`) and the
default reset. -/
def stepCFallback (s : CState) (lineFrom : Nat) (trimmed nextRaw : Line) :
    CState × LineRole × List Directive :=
  if (matchDef02 (jsTrim nextRaw)).isSome && !isNotTermC trimmed then
    (⟨s.inCodeBlock, true, false⟩, .term, [⟨lineFrom, lineFrom, .lineDT⟩])
  else
    (⟨s.inCodeBlock, false, false⟩, .other, [])

/-- One iteration of the `buildDecorations` loop (final iteration in
src/main.ts): given the flags, the line's start offset, its text and the
raw next line, produce the new flags, the line's role and its directives.
Mirrors the branch structure of the source: fence toggle, inside-fence
skip, blank reset, definition chaining (`definitionMatch &&
(lastLineWasTerm || lastLineWasDefinition)`), then the fallback. -/
def stepC (sel : Sel) (s : CState) (lineFrom : Nat) (lineText nextRaw : Line) :
    CState × LineRole × List Directive :=
  let trimmed := jsTrim lineText
  if isFenceLine lineText then
    (⟨!s.inCodeBlock, false, false⟩, .other, [])
  else if s.inCodeBlock then
    (⟨s.inCodeBlock, false, false⟩, .other, [])
  else if trimmed.isEmpty then
    (⟨s.inCodeBlock, false, false⟩, .other, [])
  else
    match matchDef lineText with
    | some (ind, mk) =>
      if s.lastLineWasTerm || s.lastLineWasDefinition then
        let isIndented := ind.length > 0
        let lineDir : Directive :=
          ⟨lineFrom, lineFrom, if isIndented then .lineDDIndented else .lineDDReg⟩
        let markerEndPos := lineFrom + ind.length + 1 + 1
        let touching := sel.any fun r =>
          decide (r.1 ≤ markerEndPos) && decide (lineFrom ≤ r.2)
        let markDir : Directive :=
          ⟨lineFrom, markerEndPos,
           if touching then .markVisibleMarker else .markHiddenMarker⟩
        (⟨s.inCodeBlock, false, true⟩, .definition ind mk, [lineDir, markDir])
      else stepCFallback s lineFrom trimmed nextRaw
    | none => stepCFallback s lineFrom trimmed nextRaw

/-- The classification/decoration pass over a document: a left-to-right
scan threading the flags and the running start offset of each line
(each line contributes its length plus one for the newline). -/
def classifyAux (sel : Sel) : CState → Nat → List Line →
    List (LineRole × List Directive)
  | _, _, [] => []
  | s, ofs, l :: rest =>
    let r := stepC sel s ofs l (headOrNil rest)
    (r.2.1, r.2.2) :: classifyAux sel r.1 (ofs + l.length + 1) rest

/-- Roles and directives for a whole document, from the initial state. -/
def classifyPairs (lines : List Line) (sel : Sel) :
    List (LineRole × List Directive) :=
  classifyAux sel ⟨false, false, false⟩ 0 lines

/-- The per-line roles assigned by the classifier. -/
def classifyRoles (lines : List Line) (sel : Sel) : List LineRole :=
  (classifyPairs lines sel).map Prod.fst

/-- The full ordered directive list built by the annotation pass. -/
def buildDirectives (lines : List Line) (sel : Sel) : List Directive :=
  ((classifyPairs lines sel).map Prod.snd).flatten

/-- Start offset of line `i`: the sum of the lengths (plus newline) of the
preceding lines, as exposed by the text buffer's `line(i).from`. -/
def lineFromOf (lines : List Line) (i : Nat) : Nat :=
  (((lines.take i).map fun l => l.length + 1)).sum

/-- The marker tests of the two consumers, applied to one raw line:
the live-preview classifier matches the raw text. -/
def classifierMarkerTest (l : Line) : Bool := (matchDef l).isSome

/-- The reading-mode post-processor first trims the line
(`lines[i].trim()`) and additionally requires a non-empty body. -/
def restructurerMarkerTest (l : Line) : Bool := (matchDef3 (jsTrim l)).isSome

/-- The classifier's guarded previous-line lookup
(`i > 1 ? doc.line(i - 1).text : ` empty string), with 1-based line
numbers as in the source. -/
def prevLineLookup (lines : List Line) (i : Nat) : Line :=
  if 1 < i then ((lines.get? (i - 2)).getD []) else []

/-- The classifier's guarded next-line lookup
(`i < doc.lines ? doc.line(i + 1).text : ` empty string), 1-based. -/
def nextLineLookup (lines : List Line) (i : Nat) : Line :=
  if i < lines.length then ((lines.get? i).getD []) else []

/-! ## Reading-mode post-processor (list restructurer) -/

/-- The `<br>` separator on which a paragraph's innerHTML is split. -/
def brStr : Line := str "<br>"

/-- An output item of the restructurer: a plain content fragment, or a
rendered term/definition-list node (one term, ordered definitions). -/
inductive RItem where
  | strItem (s : Line)
  | dlItem (term : Line) (defs : List Line)
deriving DecidableEq, Repr

/-- The per-paragraph mutable state of the post-processor loop:
accumulated `newContent` (in reverse), `currentTerm`, whether the `dl`
variable is non-null, and `invalidateCurrentPair`. -/
structure RState where
  revItems : List RItem
  currentTerm : Option Line
  dlOpen : Bool
  invalidate : Bool
deriving DecidableEq, Repr

/-- `dl.appendChild(dd)`: append a definition body to the most recently
pushed list node (which is the head of the reversed item list whenever the
source's `dl` variable is non-null and a term is pending). -/
def appendDD (items : List RItem) (d : Line) : List RItem :=
  match items with
  | .dlItem t ds :: rest => .dlItem t (ds ++ [d]) :: rest
  | items => items

/-- One iteration of the post-processor loop over the lines of one
paragraph (src/main.ts, `definitionListPostProcessor`): the current raw
line and raw next line are trimmed; a definition-pattern line extends or
opens a list node when a term is pending and the pair is not invalidated
by footnote-backreference markup, and is otherwise flushed (with any
pending term) as plain content; a line whose successor matches the
definition pattern and which is not excluded becomes the pending term;
any other line is flushed as plain content with `<br>` re-appended. -/
def stepR (s : RState) (rawLine rawNext : Line) : RState :=
  let line := jsTrim rawLine
  let nextLine := jsTrim rawNext
  match matchDef3 line, s.invalidate with
  | some (_, _, body), false =>
    let inv := containsSubstr footnoteBackref body
    match s.currentTerm, inv with
    | some ct, false =>
      if s.dlOpen then
        ⟨appendDD s.revItems body, s.currentTerm, true, false⟩
      else
        ⟨.dlItem ct [body] :: s.revItems, s.currentTerm, true, false⟩
    | ct?, _ =>
      let items1 := match ct? with
        | some ct => RItem.strItem (ct ++ brStr) :: s.revItems
        | none => s.revItems
      ⟨RItem.strItem (line ++ brStr) :: items1, none, s.dlOpen, false⟩
  | _, _ =>
    if (matchDef3 nextLine).isSome && !isNotTermR line && !s.invalidate then
      let items1 := match s.currentTerm with
        | some ct => RItem.strItem (ct ++ brStr) :: s.revItems
        | none => s.revItems
      ⟨items1, some line, false, s.invalidate⟩
    else
      let items1 := match s.currentTerm with
        | some ct => RItem.strItem (ct ++ brStr) :: s.revItems
        | none => s.revItems
      ⟨RItem.strItem (line ++ brStr) :: items1, none, false, false⟩

/-- The post-processor loop over the lines of one paragraph. A pending
`currentTerm` at the end of the loop is dropped, as in the source. -/
def processAux : RState → List Line → RState
  | s, [] => s
  | s, l :: rest => processAux (stepR s l (headOrNil rest)) rest

/-- Restructure the (already split) lines of one paragraph block. -/
def restructureLines (lines : List Line) : List RItem :=
  (processAux ⟨[], none, false, false⟩ lines).revItems.reverse

/-- Serialization of an output item back to innerHTML text. -/
def renderItem : RItem → Line
  | .strItem s => s
  | .dlItem t ds =>
    str "<dl><dt>" ++ t ++ str "</dt>" ++
      (ds.map fun d => str "<dd>" ++ d ++ str "</dd>").flatten ++ str "</dl>"

/-- The paragraph's new content, concatenated in order. -/
def renderItems (items : List RItem) : Line := (items.map renderItem).flatten

/-- The number of term/definition-list nodes the restructurer produced. -/
def countDl (items : List RItem) : Nat :=
  (items.filter fun i => match i with | .dlItem _ _ => true | _ => false).length

/-- Whether `brStr` occurs at the start. -/
def isBrAt (l : Line) : Bool := brStr.isPrefixOf l

/-- `paragraph.innerHTML.split(the br tag)`: scan left to right, cutting at
each (leftmost) occurrence of the separator. -/
def splitBrAux : List Char → List Char → List Line
  | [], acc => [acc.reverse]
  | '<' :: 'b' :: 'r' :: '>' :: rest, acc => acc.reverse :: splitBrAux rest []
  | c :: rest, acc => splitBrAux rest (c :: acc)

/-- Split a paragraph's innerHTML on `<br>`. -/
def splitBr (l : Line) : List Line := splitBrAux l []

/-- The whole reading-mode restructuring of one paragraph block: split the
innerHTML on `<br>`, run the loop, and write the new content back. -/
def restructureHTML (html : Line) : Line :=
  renderItems (restructureLines (splitBr html))

/-- Whether `brStr` occurs anywhere in a line. -/
def hasBr : Line → Bool
  | [] => false
  | c :: rest => isBrAt (c :: rest) || hasBr rest

/-- The code-fence toggle applied by one line of `buildDecorations`. -/
def fenceToggle (b : Bool) (l : Line) : Bool := if isFenceLine l then !b else b

/-- Whether the classifier is inside a fenced code region when it reaches
line `i`: the fence toggle folded over the preceding lines. -/
def inCodeBefore (lines : List Line) (i : Nat) : Bool :=
  (lines.take i).foldl fenceToggle false

/-! # Lemmas

General facts about the embedded string primitives, then the per-step and
per-pass lemmas for the classifier and the restructurer, then the claims.
-/

/-- Marker characters are not whitespace. -/
theorem marker_not_ws {m : Char} (h : isMarkerChar m = true) : isJsSpace m = false := by
  simp only [isMarkerChar, Bool.or_eq_true, decide_eq_true_eq] at h
  rcases h with rfl | rfl <;> decide

/-- If the whitespace prefix is empty, `dropWhile` keeps the line. -/
theorem dropWhile_of_takeWhile_nil {p : Char → Bool} {l : Line}
    (h : l.takeWhile p = []) : l.dropWhile p = l := by
  have := List.takeWhile_append_dropWhile p l
  rw [h] at this
  simpa using this

/-- `takeWhile` of a `dropWhile` by the same predicate is empty. -/
theorem takeWhile_dropWhile_nil (p : Char → Bool) (l : Line) :
    (l.dropWhile p).takeWhile p = [] := by
  induction l with
  | nil => rfl
  | cons c rest ih =>
    by_cases h : p c
    · simpa [List.dropWhile_cons, h] using ih
    · simp [List.dropWhile_cons, h, List.takeWhile_cons, h]

/-- `takeWhile` vanishes on prefixes when it vanishes on the whole. -/
theorem takeWhile_nil_of_append {p : Char → Bool} {y t : Line}
    (h : (y ++ t).takeWhile p = []) : y.takeWhile p = [] := by
  rcases y with _ | ⟨c, y⟩
  · rfl
  · by_cases hc : p c
    · simp [List.takeWhile_cons, hc] at h
    · simp [List.takeWhile_cons, hc]

/-- Splitting off an all-`p` prefix commutes with `takeWhile`. -/
theorem takeWhile_append_all {p : Char → Bool} {A r : Line}
    (h : ∀ a ∈ A, p a = true) : (A ++ r).takeWhile p = A ++ r.takeWhile p := by
  induction A with
  | nil => simp
  | cons a A ih =>
    have ha := h a (by simp)
    simp only [List.cons_append, List.takeWhile_cons, ha]
    rw [ih (fun b hb => h b (by simp [hb]))]
    simp

/-- Splitting off an all-`p` prefix commutes with `dropWhile`. -/
theorem dropWhile_append_all {p : Char → Bool} {A r : Line}
    (h : ∀ a ∈ A, p a = true) : (A ++ r).dropWhile p = r.dropWhile p := by
  induction A with
  | nil => simp
  | cons a A ih =>
    have ha := h a (by simp)
    simp only [List.cons_append, List.dropWhile_cons, ha]
    exact ih (fun b hb => h b (by simp [hb]))

/-- A trimmed line has no leading whitespace. -/
theorem takeWhile_jsTrim_nil (l : Line) :
    (jsTrim l).takeWhile isJsSpace = [] := by
  have h1 : (jsTrimLeft l).takeWhile isJsSpace = [] :=
    takeWhile_dropWhile_nil isJsSpace l
  have h2 : jsTrimLeft l =
      jsTrim l ++ ((jsTrimLeft l).reverse.takeWhile isJsSpace).reverse := by
    conv_lhs => rw [← List.reverse_reverse (jsTrimLeft l)]
    conv_lhs =>
      rw [← List.takeWhile_append_dropWhile isJsSpace (jsTrimLeft l).reverse]
    rw [List.reverse_append]
    rfl
  rw [h2] at h1
  exact takeWhile_nil_of_append h1

/-- Decomposition of a line around its trim: whitespace, the trimmed core,
whitespace. -/
theorem jsTrim_decomp (l : Line) :
    ∃ A B, l = A ++ jsTrim l ++ B ∧
      (∀ c ∈ A, isJsSpace c = true) ∧ (∀ c ∈ B, isJsSpace c = true) := by
  refine ⟨l.takeWhile isJsSpace, ((jsTrimLeft l).reverse.takeWhile isJsSpace).reverse,
    ?_, fun c hc => List.mem_takeWhile_imp hc, fun c hc => ?_⟩
  · have h2 : jsTrimLeft l =
        jsTrim l ++ ((jsTrimLeft l).reverse.takeWhile isJsSpace).reverse := by
      conv_lhs => rw [← List.reverse_reverse (jsTrimLeft l)]
      conv_lhs =>
        rw [← List.takeWhile_append_dropWhile isJsSpace (jsTrimLeft l).reverse]
      rw [List.reverse_append]
      rfl
    conv_lhs => rw [← List.takeWhile_append_dropWhile isJsSpace l]
    rw [List.append_assoc]
    exact congrArg _ h2
  · exact List.mem_takeWhile_imp (List.mem_reverse.mp hc)

/-- The empty line trims to itself. -/
theorem jsTrim_nil : jsTrim ([] : Line) = [] := rfl

/-- Trimming is idempotent. -/
theorem jsTrim_idem (l : Line) : jsTrim (jsTrim l) = jsTrim l := by
  have h1 : (jsTrim l).takeWhile isJsSpace = [] := takeWhile_jsTrim_nil l
  have h2 : jsTrimLeft (jsTrim l) = jsTrim l := dropWhile_of_takeWhile_nil h1
  have h3 : (jsTrim l).reverse.takeWhile isJsSpace = [] := by
    have hrev : (jsTrim l).reverse = (jsTrimLeft l).reverse.dropWhile isJsSpace := by
      simp only [jsTrim, jsTrimRight, List.reverse_reverse]
    rw [hrev]
    exact takeWhile_dropWhile_nil isJsSpace _
  have h4 : (jsTrim l).reverse.dropWhile isJsSpace = (jsTrim l).reverse :=
    dropWhile_of_takeWhile_nil h3
  show jsTrimRight (jsTrimLeft (jsTrim l)) = jsTrim l
  rw [h2]
  show ((jsTrim l).reverse.dropWhile isJsSpace).reverse = jsTrim l
  rw [h4, List.reverse_reverse]

/-- `matchDef` on a line built from an all-whitespace indent, a marker, a
whitespace character and a tail. -/
theorem matchDef_build {A : Line} {m c : Char} (rest : Line)
    (hA : ∀ a ∈ A, isJsSpace a = true) (hm : isMarkerChar m = true)
    (hc : isJsSpace c = true) :
    matchDef (A ++ m :: c :: rest) = some (A, m) := by
  have hmw : isJsSpace m = false := marker_not_ws hm
  have htw : (A ++ m :: c :: rest).takeWhile isJsSpace = A := by
    rw [takeWhile_append_all hA, List.takeWhile_cons, hmw]
    simp
  have hdw : (A ++ m :: c :: rest).dropWhile isJsSpace = m :: c :: rest := by
    rw [dropWhile_append_all hA, List.dropWhile_cons, hmw]
    simp
  simp only [matchDef, htw, hdw, hm, hc, Bool.and_self, if_true]

/-- Structure extracted from a successful `matchDef3`. -/
theorem matchDef3_decomp {t : Line} (h : (matchDef3 t).isSome = true) :
    ∃ m c rest, t.dropWhile isJsSpace = m :: c :: rest ∧
      isMarkerChar m = true ∧ isJsSpace c = true := by
  unfold matchDef3 at h
  rcases hd : t.dropWhile isJsSpace with _ | ⟨m, _ | ⟨c, rest⟩⟩ <;>
    simp only [hd] at h
  · simp at h
  · simp at h
  · by_cases hmc : (isMarkerChar m && isJsSpace c) = true
    · have h12 : isMarkerChar m = true ∧ isJsSpace c = true := by simpa using hmc
      exact ⟨m, c, rest, rfl, h12.1, h12.2⟩
    · simp [hmc] at h

/-- C1, refined direction that holds: every line the restructurer's marker
test accepts, the classifier's marker test accepts as well (the converse
fails on marker lines with an empty body, see the counterexample). -/
theorem restructurer_test_implies_classifier_test (l : Line)
    (h : restructurerMarkerTest l = true) : classifierMarkerTest l = true := by
  unfold restructurerMarkerTest at h
  obtain ⟨m, c, rest, hdw, hm, hc⟩ := matchDef3_decomp h
  have htw : (jsTrim l).takeWhile isJsSpace = [] := takeWhile_jsTrim_nil l
  have hteq : jsTrim l = m :: c :: rest := by
    rw [← dropWhile_of_takeWhile_nil htw]
    exact hdw
  obtain ⟨A, B, hl, hA, _⟩ := jsTrim_decomp l
  rw [hteq] at hl
  have : l = A ++ m :: c :: (rest ++ B) := by
    rw [hl]
    simp
  rw [this]
  unfold classifierMarkerTest
  rw [matchDef_build (rest ++ B) hA hm hc]
  rfl

/-- C1 witness: the implication at a concrete marker line. -/
theorem restructurer_test_implies_classifier_test_witness :
    restructurerMarkerTest (str ": x") = true ∧
      classifierMarkerTest (str ": x") = true :=
  ⟨by decide, restructurer_test_implies_classifier_test (str ": x") (by decide)⟩

/-- C1 counterexample: the two marker tests disagree on the line made of a
colon and a space (empty body): the live-preview classifier treats it as a
definition-marker line, the reading-mode restructurer does not. -/
theorem marker_tests_disagree :
    classifierMarkerTest (str ": ") = true ∧
      restructurerMarkerTest (str ": ") = false := by
  constructor <;> decide

/-! ## Per-step facts about the classifier -/

/-- The fallback assigns `term` or `other`, with matching flags. -/
theorem stepCFallback_flags (s : CState) (ofs : Nat) (t n : Line) :
    ((stepCFallback s ofs t n).1.lastLineWasTerm = true ↔
      (stepCFallback s ofs t n).2.1 = .term) ∧
    ((stepCFallback s ofs t n).1.lastLineWasDefinition = true ↔
      (stepCFallback s ofs t n).2.1.isDef = true) := by
  unfold stepCFallback
  split <;> simp [LineRole.isDef]

/-- After one step, the run flags record exactly the role just assigned. -/
theorem stepC_flags (sel : Sel) (s : CState) (ofs : Nat) (l n : Line) :
    ((stepC sel s ofs l n).1.lastLineWasTerm = true ↔
      (stepC sel s ofs l n).2.1 = .term) ∧
    ((stepC sel s ofs l n).1.lastLineWasDefinition = true ↔
      (stepC sel s ofs l n).2.1.isDef = true) := by
  unfold stepC
  dsimp only
  split
  · simp [LineRole.isDef]
  split
  · simp [LineRole.isDef]
  split
  · simp [LineRole.isDef]
  split
  · split
    · simp [LineRole.isDef]
    · exact stepCFallback_flags s ofs (jsTrim l) n
  · exact stepCFallback_flags s ofs (jsTrim l) n

/-- A step assigns `definition` only when a run is open, and then its
groups come from `matchDef` and its directives are the `dd` line class and
one marker-visibility mark over the span starting at the line start. -/
theorem stepC_def_shape (sel : Sel) (s : CState) (ofs : Nat) (l n : Line)
    (ind : Line) (mk : Char)
    (h : (stepC sel s ofs l n).2.1 = .definition ind mk) :
    (s.lastLineWasTerm = true ∨ s.lastLineWasDefinition = true) ∧
    matchDef l = some (ind, mk) ∧
    (stepC sel s ofs l n).2.2 =
      [⟨ofs, ofs, if ind.length > 0 then .lineDDIndented else .lineDDReg⟩,
       ⟨ofs, ofs + ind.length + 1 + 1,
        if sel.any (fun r => decide (r.1 ≤ ofs + ind.length + 1 + 1) &&
            decide (ofs ≤ r.2))
        then .markVisibleMarker else .markHiddenMarker⟩] := by
  have hfb : ∀ t, (stepCFallback s ofs t n).2.1 ≠ LineRole.definition ind mk := by
    intro t
    unfold stepCFallback
    split <;> simp
  unfold stepC at h ⊢
  dsimp only at h ⊢
  by_cases hf : isFenceLine l = true
  · rw [if_pos hf] at h
    exact absurd h (by simp)
  rw [if_neg hf] at h ⊢
  by_cases hic : s.inCodeBlock = true
  · rw [if_pos hic] at h
    exact absurd h (by simp)
  rw [if_neg hic] at h ⊢
  by_cases hbl : (jsTrim l).isEmpty = true
  · rw [if_pos hbl] at h
    exact absurd h (by simp)
  rw [if_neg hbl] at h ⊢
  rcases hm : matchDef l with _ | ⟨ind2, mk2⟩
  · rw [hm] at h
    dsimp only at h
    exact absurd h (hfb _)
  rcases hw : s.lastLineWasTerm || s.lastLineWasDefinition
  · rw [hm] at h
    dsimp only at h
    rw [hw] at h
    rw [if_neg (by simp)] at h
    exact absurd h (hfb _)
  · rw [hm] at h
    dsimp only at h
    rw [hw] at h
    rw [if_pos rfl] at h
    dsimp only at h
    have hin : ind2 = ind := by injection h with h1 h2
    have hmk : mk2 = mk := by injection h with h1 h2
    subst hin hmk
    exact ⟨by simpa using hw, rfl, rfl⟩

/-- A fence-delimiter line toggles the state and is `Other` with no
directives. -/
theorem stepC_fence (sel : Sel) (s : CState) (ofs : Nat) (l n : Line)
    (hf : isFenceLine l = true) :
    stepC sel s ofs l n = (⟨!s.inCodeBlock, false, false⟩, .other, []) := by
  unfold stepC
  rw [if_pos hf]

/-- A line inside a fenced region is `Other` with no directives. -/
theorem stepC_inCode (sel : Sel) (s : CState) (ofs : Nat) (l n : Line)
    (hf : isFenceLine l = false) (hic : s.inCodeBlock = true) :
    stepC sel s ofs l n = (⟨s.inCodeBlock, false, false⟩, .other, []) := by
  unfold stepC
  rw [if_neg (by simp [hf]), if_pos hic]

/-- The fallback keeps the fence state. -/
theorem stepCFallback_inCode (s : CState) (ofs : Nat) (t n : Line) :
    (stepCFallback s ofs t n).1.inCodeBlock = s.inCodeBlock := by
  unfold stepCFallback
  split <;> rfl

/-- One step updates the fence state exactly by the fence toggle. -/
theorem stepC_state_inCode (sel : Sel) (s : CState) (ofs : Nat) (l n : Line) :
    (stepC sel s ofs l n).1.inCodeBlock = fenceToggle s.inCodeBlock l := by
  unfold stepC fenceToggle
  by_cases hf : isFenceLine l = true
  · rw [if_pos hf, if_pos hf]
  rw [if_neg hf, if_neg hf]
  dsimp only
  split
  · rfl
  split
  · rfl
  rcases matchDef l with _ | ⟨ind2, mk2⟩
  · exact stepCFallback_inCode s ofs (jsTrim l) n
  · dsimp only
    split
    · rfl
    · exact stepCFallback_inCode s ofs (jsTrim l) n

/-- A blank line (empty after trimming) is `Other` with no directives. -/
theorem stepC_blank (sel : Sel) (s : CState) (ofs : Nat) (l n : Line)
    (hb : jsTrim l = []) :
    (stepC sel s ofs l n).2.1 = .other ∧ (stepC sel s ofs l n).2.2 = [] := by
  have hf : isFenceLine l = false := by
    unfold isFenceLine
    rw [hb]
    rfl
  unfold stepC
  rw [if_neg (by simp [hf])]
  by_cases hic : s.inCodeBlock = true
  · rw [if_pos hic]
    exact ⟨rfl, rfl⟩
  · rw [if_neg hic, if_pos (by simp [hb])]
    exact ⟨rfl, rfl⟩

/-- No step ever emits a margin-reserve directive. -/
theorem stepC_kinds (sel : Sel) (s : CState) (ofs : Nat) (l n : Line) :
    ∀ d ∈ (stepC sel s ofs l n).2.2, d.kind ≠ .markMarginReserve := by
  have hfb : ∀ t, ∀ d ∈ (stepCFallback s ofs t n).2.2,
      d.kind ≠ DirKind.markMarginReserve := by
    intro t
    unfold stepCFallback
    split <;> simp
  unfold stepC
  dsimp only
  split
  · simp
  split
  · simp
  split
  · simp
  rcases matchDef l with _ | ⟨ind2, mk2⟩
  · exact hfb _
  · dsimp only
    split
    · intro d hd
      rcases List.mem_cons.mp hd with rfl | hd2
      · split <;> simp
      rcases List.mem_singleton.mp hd2 with rfl
      split <;> simp
    · exact hfb _

/-! ## Pass-level facts about the classifier -/

/-- The pass assigns exactly one role to every line (totality). -/
theorem classifyAux_length (sel : Sel) :
    ∀ (lines : List Line) (s : CState) (ofs : Nat),
      (classifyAux sel s ofs lines).length = lines.length := by
  intro lines
  induction lines with
  | nil => intro s ofs; rfl
  | cons l rest ih =>
    intro s ofs
    simp only [classifyAux, List.length_cons]
    rw [ih]

/-- Unfolding of the pass on a cons cell. -/
theorem classifyAux_cons (sel : Sel) (s : CState) (ofs : Nat) (l : Line)
    (rest : List Line) :
    classifyAux sel s ofs (l :: rest) =
      ((stepC sel s ofs l (headOrNil rest)).2.1,
       (stepC sel s ofs l (headOrNil rest)).2.2) ::
        classifyAux sel (stepC sel s ofs l (headOrNil rest)).1
          (ofs + l.length + 1) rest := rfl

/-- A `definition` role on a non-initial line forces the previous line's
role to be `term` or `definition` (the run must be open). -/
theorem classifyAux_chain (sel : Sel) :
    ∀ (lines : List Line) (s : CState) (ofs i : Nat) (ind : Line) (mk : Char),
      ((classifyAux sel s ofs lines).get? (i + 1)).map Prod.fst =
        some (.definition ind mk) →
      ∃ r dirs, (classifyAux sel s ofs lines).get? i = some (r, dirs) ∧
        (r = .term ∨ r.isDef = true) := by
  intro lines
  induction lines with
  | nil => intro s ofs i ind mk h; simp [classifyAux] at h
  | cons l rest ih =>
    intro s ofs i ind mk h
    rw [classifyAux_cons] at h ⊢
    rcases i with _ | j
    · rcases rest with _ | ⟨r2, rest2⟩
      · simp [classifyAux] at h
      rw [List.get?_cons_succ] at h
      rw [classifyAux_cons] at h
      simp only [List.get?_cons_zero, Option.map_some', Option.some_inj] at h
      obtain ⟨hflags, _, _⟩ := stepC_def_shape _ _ _ _ _ _ _ h
      have hcorr := stepC_flags sel s ofs l (headOrNil (r2 :: rest2))
      refine ⟨(stepC sel s ofs l (headOrNil (r2 :: rest2))).2.1,
        (stepC sel s ofs l (headOrNil (r2 :: rest2))).2.2, rfl, ?_⟩
      rcases hflags with hT | hD
      · exact Or.inl (hcorr.1.mp hT)
      · exact Or.inr (hcorr.2.mp hD)
    · rw [List.get?_cons_succ] at h ⊢
      exact ih _ _ j ind mk h

/-- The first line is never a `definition` (no run is open initially). -/
theorem classifyRoles_first_not_def (lines : List Line) (sel : Sel)
    (ind : Line) (mk : Char) :
    (classifyRoles lines sel).get? 0 ≠ some (.definition ind mk) := by
  intro h
  rcases lines with _ | ⟨l, rest⟩
  · simp [classifyRoles, classifyPairs, classifyAux] at h
  unfold classifyRoles classifyPairs at h
  rw [classifyAux_cons] at h
  rw [List.get?_map, List.get?_cons_zero] at h
  simp only [Option.map_some', Option.some_inj] at h
  obtain ⟨hflags, _, _⟩ := stepC_def_shape _ _ _ _ _ _ _ h
  rcases hflags with hT | hD
  · exact Bool.false_ne_true hT
  · exact Bool.false_ne_true hD

/-- The directive shape of every line classified `definition`: the line
matches the unbounded-indent marker pattern, and its directives are the
`dd` line class and a single marker mark over the span starting at the
line start and ending after the indent, the marker and its space. -/
theorem classifyAux_def_shape (sel : Sel) :
    ∀ (lines : List Line) (s : CState) (ofs i : Nat) (ind : Line) (mk : Char)
      (dirs : List Directive),
      (classifyAux sel s ofs lines).get? i = some (.definition ind mk, dirs) →
      ∃ l lo, lines.get? i = some l ∧ matchDef l = some (ind, mk) ∧
        lo = ofs + lineFromOf lines i ∧
        dirs = [⟨lo, lo, if ind.length > 0 then DirKind.lineDDIndented
                         else DirKind.lineDDReg⟩,
                ⟨lo, lo + ind.length + 1 + 1,
                 if sel.any (fun r => decide (r.1 ≤ lo + ind.length + 1 + 1) &&
                     decide (lo ≤ r.2))
                 then DirKind.markVisibleMarker
                 else DirKind.markHiddenMarker⟩] := by
  intro lines
  induction lines with
  | nil => intro s ofs i ind mk dirs h; simp [classifyAux] at h
  | cons l rest ih =>
    intro s ofs i ind mk dirs h
    rw [classifyAux_cons] at h
    rcases i with _ | j
    · rw [List.get?_cons_zero] at h
      have hrole : (stepC sel s ofs l (headOrNil rest)).2.1 =
          LineRole.definition ind mk := by
        have := congrArg (fun p => (Option.map Prod.fst p)) h
        simpa using this
      have hdirs : (stepC sel s ofs l (headOrNil rest)).2.2 = dirs := by
        have := congrArg (fun p => (Option.map Prod.snd p)) h
        simpa using this
      obtain ⟨_, hm, hshape⟩ := stepC_def_shape _ _ _ _ _ _ _ hrole
      refine ⟨l, ofs, rfl, hm, by simp [lineFromOf], ?_⟩
      rw [← hdirs, hshape]
    · rw [List.get?_cons_succ] at h
      obtain ⟨l2, lo, hget, hm, hlo, hshape⟩ := ih _ _ j ind mk dirs h
      refine ⟨l2, lo, by simpa using hget, hm, ?_, hshape⟩
      rw [hlo]
      have hsum : lineFromOf (l :: rest) (j + 1) =
          l.length + 1 + lineFromOf rest j := by
        simp [lineFromOf, List.take_succ_cons]
        try omega
      rw [hsum]
      omega

/-- A blank line is classified `Other` with no directives, in any state. -/
theorem classifyAux_blank (sel : Sel) :
    ∀ (lines : List Line) (s : CState) (ofs i : Nat) (l : Line),
      lines.get? i = some l → jsTrim l = [] →
      (classifyAux sel s ofs lines).get? i = some (.other, []) := by
  intro lines
  induction lines with
  | nil => intro s ofs i l h; simp at h
  | cons l0 rest ih =>
    intro s ofs i l hget hb
    rw [classifyAux_cons]
    rcases i with _ | j
    · rw [List.get?_cons_zero] at hget
      have hl : l0 = l := by injection hget
      subst hl
      obtain ⟨h1, h2⟩ := stepC_blank sel s ofs l0 (headOrNil rest) hb
      rw [List.get?_cons_zero, h1, h2]
    · rw [List.get?_cons_succ] at hget ⊢
      exact ih _ _ j l hget hb

/-- A line reached with the fence toggle on, or itself a fence delimiter,
is classified `Other` with no directives. -/
theorem classifyAux_code (sel : Sel) :
    ∀ (lines : List Line) (s : CState) (ofs i : Nat) (l : Line),
      lines.get? i = some l →
      ((lines.take i).foldl fenceToggle s.inCodeBlock = true ∨
        isFenceLine l = true) →
      (classifyAux sel s ofs lines).get? i = some (.other, []) := by
  intro lines
  induction lines with
  | nil => intro s ofs i l h; simp at h
  | cons l0 rest ih =>
    intro s ofs i l hget hcode
    rw [classifyAux_cons]
    rcases i with _ | j
    · rw [List.get?_cons_zero] at hget
      have hl : l0 = l := by injection hget
      subst hl
      rw [List.get?_cons_zero]
      simp only [List.take_zero, List.foldl_nil] at hcode
      by_cases hf : isFenceLine l0 = true
      · rw [stepC_fence sel s ofs l0 (headOrNil rest) hf]
      · have hic : s.inCodeBlock = true := by
          rcases hcode with h | h
          · exact h
          · exact absurd h hf
        rw [stepC_inCode sel s ofs l0 (headOrNil rest)
          (Bool.not_eq_true _ ▸ Bool.of_not_eq_true hf) hic]
    · rw [List.get?_cons_succ] at hget ⊢
      refine ih _ _ j l hget ?_
      rcases hcode with h | h
      · left
        rw [stepC_state_inCode]
        simpa [List.take_succ_cons] using h
      · right
        exact h

/-- The annotation pass never emits a margin-reserve directive. -/
theorem buildDirectives_no_reserve_aux (sel : Sel) :
    ∀ (lines : List Line) (s : CState) (ofs : Nat),
      ∀ d ∈ ((classifyAux sel s ofs lines).map Prod.snd).flatten,
        d.kind ≠ DirKind.markMarginReserve := by
  intro lines
  induction lines with
  | nil => intro s ofs d hd; simp [classifyAux] at hd
  | cons l rest ih =>
    intro s ofs d hd
    rw [classifyAux_cons] at hd
    simp only [List.map_cons, List.flatten_cons, List.mem_append] at hd
    rcases hd with hd | hd
    · exact stepC_kinds sel s ofs l (headOrNil rest) d hd
    · exact ih _ _ d hd

/-- Inversion of a successful `matchDef`: the indent group is the leading
whitespace run and the marker group is a marker character. -/
theorem matchDef_inv {l ind : Line} {mk : Char}
    (h : matchDef l = some (ind, mk)) :
    ind = l.takeWhile isJsSpace ∧ isMarkerChar mk = true := by
  unfold matchDef at h
  dsimp only at h
  split at h
  · split at h
    · rename_i m c rest heq hcond
      have h12 : isMarkerChar m = true ∧ isJsSpace c = true := by
        simpa using hcond
      have hp : ind = l.takeWhile isJsSpace ∧ m = mk := by
        have := Option.some_inj.mp h
        exact ⟨(congrArg Prod.fst this).symm, congrArg Prod.snd this⟩
      exact ⟨hp.1, hp.2 ▸ h12.1⟩
    · exact absurd h (by simp)
  · exact absurd h (by simp)

/-! ## Claims C2, C3, C4, C5, C8, C9 (classifier and annotation pass) -/

/-- C2, counterexample: a line matching the marker pattern with no open
run (here the very first line of the document) is classified `Term`, not
`Other`, when the following line also matches the definition pattern. -/
theorem lone_marker_line_classified_term :
    classifierMarkerTest (str ": a") = true ∧
    classifyRoles [str ": a", str ": b"] [] =
      [.term, .definition [] ':'] := by
  constructor <;> decide

/-- C2, amended: a marker-pattern line never receives the `Definition`
role without an open run — the first line is never a `Definition`, and a
`Definition` on any later line forces the previous line's role to be
`Term` or `Definition`; without an open run a marker-looking line is
classified `Other` or (when its successor matches the definition pattern)
`Term`, but never `Definition`. -/
theorem definition_only_chains_from_open_run (lines : List Line) (sel : Sel) :
    (∀ ind mk, (classifyRoles lines sel).get? 0 ≠ some (.definition ind mk)) ∧
    (∀ i ind mk,
      (classifyRoles lines sel).get? (i + 1) = some (.definition ind mk) →
      ∃ r, (classifyRoles lines sel).get? i = some r ∧
        (r = .term ∨ r.isDef = true)) := by
  constructor
  · exact fun ind mk => classifyRoles_first_not_def lines sel ind mk
  · intro i ind mk h
    unfold classifyRoles classifyPairs at h ⊢
    rw [List.get?_map] at h
    obtain ⟨r, dirs, hget, hr⟩ := classifyAux_chain sel lines _ _ i ind mk h
    rw [List.get?_map, hget]
    exact ⟨r, by simp, hr⟩

/-- C2 witness: the amended statement applied to a concrete document. -/
theorem definition_only_chains_from_open_run_witness :
    ∃ r, (classifyRoles [str "T", str ": x"] []).get? 0 = some r ∧
      (r = .term ∨ r.isDef = true) :=
  (definition_only_chains_from_open_run [str "T", str ": x"] []).2 0 [] ':'
    (by decide)

/-- C3, counterexample: a marker line with three leading spaces IS
classified `Definition` when it chains from a term — the classifier's
pattern accepts an unbounded indent, so the claimed indent bound {0,1,2}
fails. -/
theorem three_space_indent_classified_definition :
    classifyRoles [str "T", str "   : x"] [] =
      [.term, .definition (str "   ") ':'] ∧
    (str "   ").length = 3 := by
  constructor <;> decide

/-- C3, amended: a `Definition` role's marker is always a colon or tilde,
and its indent is a (possibly arbitrarily long) run of whitespace
characters; the indent length is NOT bounded by 2. -/
theorem definition_marker_chars_and_ws_indent (lines : List Line) (sel : Sel)
    (i : Nat) (ind : Line) (mk : Char)
    (h : (classifyRoles lines sel).get? i = some (.definition ind mk)) :
    (mk = ':' ∨ mk = '~') ∧ ∀ c ∈ ind, isJsSpace c = true := by
  unfold classifyRoles classifyPairs at h
  rw [List.get?_map] at h
  rcases hp : (classifyAux sel ⟨false, false, false⟩ 0 lines).get? i with _ | p
  · rw [hp] at h
    simp at h
  rw [hp] at h
  simp only [Option.map_some', Option.some_inj] at h
  have hp2 : (classifyAux sel ⟨false, false, false⟩ 0 lines).get? i =
      some (.definition ind mk, p.2) := by
    rw [hp, ← h]
  obtain ⟨l, lo, _, hm, _, _⟩ :=
    classifyAux_def_shape sel lines _ _ i ind mk p.2 hp2
  obtain ⟨hind, hmk⟩ := matchDef_inv hm
  constructor
  · simpa [isMarkerChar] using hmk
  · intro c hc
    rw [hind] at hc
    exact List.mem_takeWhile_imp hc

/-- C3 witness: the amended statement applied to a concrete document. -/
theorem definition_marker_chars_and_ws_indent_witness :
    (':' = ':' ∨ ':' = '~') ∧ ∀ c ∈ ([] : Line), isJsSpace c = true :=
  definition_marker_chars_and_ws_indent [str "T", str ": x"] [] 1 [] ':'
    (by decide)

/-- C4: every line reached while the fence toggle is on, and every fence
delimiter line itself, is classified `Other` and receives no annotation
directive. -/
theorem fenced_region_lines_are_other (lines : List Line) (sel : Sel)
    (i : Nat) (l : Line) (hget : lines.get? i = some l)
    (h : inCodeBefore lines i = true ∨ isFenceLine l = true) :
    (classifyPairs lines sel).get? i = some (.other, []) :=
  classifyAux_code sel lines ⟨false, false, false⟩ 0 i l hget h

/-- C4 witness: the middle line of a fenced block, containing a perfectly
marker-shaped text, is `Other` with no directives. -/
theorem fenced_region_lines_are_other_witness :
    (classifyPairs [str "```", str ": x", str "```"] []).get? 1 =
      some (.other, []) :=
  fenced_region_lines_are_other [str "```", str ": x", str "```"] [] 1
    (str ": x") (by decide) (by decide)

/-- C5, counterexample: with no cursor overlap the builder emits the
hidden-marker mark but NO margin-reserve directive (the complete directive
list for this document contains none), contradicting the claimed
"plus exactly one mark-margin-reserve directive". -/
theorem hidden_marker_without_margin_reserve :
    buildDirectives [str "T", str ": x"] [(10, 10)] =
      [⟨0, 0, .lineDT⟩, ⟨2, 2, .lineDDReg⟩, ⟨2, 4, .markHiddenMarker⟩] ∧
    ∀ d ∈ buildDirectives [str "T", str ": x"] [(10, 10)],
      d.kind ≠ DirKind.markMarginReserve := by
  constructor <;> decide

/-- C5, amended: for every `Definition` line the marker span starts at the
line start (covering indent, marker and the following space, with no
blockquote-prefix adjustment) and ends after indent length plus two; a
cursor range overlapping the span per `from ≤ span.to ∧ span.from ≤ to`
yields the visible-marker mark, no overlap yields the hidden-marker mark,
and no margin-reserve directive is ever emitted. -/
theorem definition_marker_span_marks (lines : List Line) (sel : Sel)
    (i : Nat) (ind : Line) (mk : Char) (dirs : List Directive)
    (h : (classifyPairs lines sel).get? i = some (.definition ind mk, dirs)) :
    ((∃ r ∈ sel, r.1 ≤ lineFromOf lines i + ind.length + 2 ∧
        lineFromOf lines i ≤ r.2) →
      dirs = [⟨lineFromOf lines i, lineFromOf lines i,
               if ind.length > 0 then .lineDDIndented else .lineDDReg⟩,
              ⟨lineFromOf lines i, lineFromOf lines i + ind.length + 2,
               .markVisibleMarker⟩]) ∧
    ((¬ ∃ r ∈ sel, r.1 ≤ lineFromOf lines i + ind.length + 2 ∧
        lineFromOf lines i ≤ r.2) →
      dirs = [⟨lineFromOf lines i, lineFromOf lines i,
               if ind.length > 0 then .lineDDIndented else .lineDDReg⟩,
              ⟨lineFromOf lines i, lineFromOf lines i + ind.length + 2,
               .markHiddenMarker⟩]) ∧
    (∀ d ∈ buildDirectives lines sel, d.kind ≠ DirKind.markMarginReserve) := by
  obtain ⟨l, lo, _, _, hlo, hshape⟩ :=
    classifyAux_def_shape sel lines ⟨false, false, false⟩ 0 i ind mk dirs h
  rw [Nat.zero_add] at hlo
  subst hlo
  have hany : (sel.any fun r =>
      decide (r.1 ≤ lineFromOf lines i + ind.length + 1 + 1) &&
        decide (lineFromOf lines i ≤ r.2)) = true ↔
      ∃ r ∈ sel, r.1 ≤ lineFromOf lines i + ind.length + 2 ∧
        lineFromOf lines i ≤ r.2 := by
    rw [List.any_eq_true]
    constructor
    · rintro ⟨r, hr, hcond⟩
      refine ⟨r, hr, ?_⟩
      simpa using hcond
    · rintro ⟨r, hr, hcond⟩
      refine ⟨r, hr, ?_⟩
      simpa using hcond
  refine ⟨fun hov => ?_, fun hov => ?_,
    fun d hd => buildDirectives_no_reserve_aux sel lines _ _ d hd⟩
  · rw [hshape]
    rw [if_pos (hany.mpr hov)]
  · rw [hshape]
    rw [if_neg (fun hc => hov (hany.mp hc))]

/-- C5 witness: the amended statement at a concrete document where the
cursor touches the marker span. -/
theorem definition_marker_span_marks_witness :
    ([⟨2, 2, .lineDDReg⟩, ⟨2, 4, .markVisibleMarker⟩] : List Directive) =
      [⟨lineFromOf [str "T", str ": x"] 1, lineFromOf [str "T", str ": x"] 1,
        if ([] : Line).length > 0 then .lineDDIndented else .lineDDReg⟩,
       ⟨lineFromOf [str "T", str ": x"] 1,
        lineFromOf [str "T", str ": x"] 1 + ([] : Line).length + 2,
        .markVisibleMarker⟩] :=
  (definition_marker_span_marks [str "T", str ": x"] [(3, 3)] 1 [] ':'
      [⟨2, 2, .lineDDReg⟩, ⟨2, 4, .markVisibleMarker⟩] (by decide)).1
    ⟨(3, 3), by decide, by decide, by decide⟩

/-- C8: a line immediately following a blank line is never classified
`Definition`: the blank line unconditionally clears the run flags. -/
theorem blank_line_blocks_definition (lines : List Line) (sel : Sel)
    (i : Nat) (l : Line) (hget : lines.get? i = some l)
    (hb : jsTrim l = []) (ind : Line) (mk : Char) :
    (classifyRoles lines sel).get? (i + 1) ≠ some (.definition ind mk) := by
  intro h
  unfold classifyRoles classifyPairs at h
  rw [List.get?_map] at h
  obtain ⟨r, dirs, hgetp, hr⟩ := classifyAux_chain sel lines _ _ i ind mk h
  have hother := classifyAux_blank sel lines ⟨false, false, false⟩ 0 i l hget hb
  rw [hother] at hgetp
  have hro : LineRole.other = r := by
    have := Option.some_inj.mp hgetp
    exact congrArg Prod.fst this
  rcases hr with hT | hD
  · rw [← hro] at hT
    exact absurd hT (by simp)
  · rw [← hro] at hD
    exact absurd hD (by simp [LineRole.isDef])

/-- C8 witness: a marker line right after a blank line, concretely. -/
theorem blank_line_blocks_definition_witness :
    (classifyRoles [str "", str ": x"] []).get? 1 ≠
      some (.definition [] ':') :=
  blank_line_blocks_definition [str "", str ": x"] [] 0 (str "")
    (by decide) (by decide) [] ':'

/-- C9: the guarded boundary lookups yield the empty string (previous line
of the first line, next line of the last line), every lookup the guards
allow is in range, and the classification pass is total (one role per
line). -/
theorem boundary_lookups_safe (lines : List Line) (sel : Sel) :
    prevLineLookup lines 1 = [] ∧
    nextLineLookup lines lines.length = [] ∧
    (∀ i, 1 < i → i ≤ lines.length → (lines.get? (i - 2)).isSome = true) ∧
    (∀ i, 1 ≤ i → i < lines.length → (lines.get? i).isSome = true) ∧
    (classifyPairs lines sel).length = lines.length := by
  refine ⟨rfl, ?_, ?_, ?_, classifyAux_length sel lines _ _⟩
  · unfold nextLineLookup
    rw [if_neg (lt_irrefl _)]
  · intro i h1 h2
    rw [Option.isSome_iff_ne_none]
    intro hn
    rw [List.get?_eq_none] at hn
    omega
  · intro i h1 h2
    rw [Option.isSome_iff_ne_none]
    intro hn
    rw [List.get?_eq_none] at hn
    omega

/-- C9 witness: the boundary lookups on a concrete two-line document. -/
theorem boundary_lookups_safe_witness :
    prevLineLookup [str "a", str "b"] 1 = [] ∧
    nextLineLookup [str "a", str "b"] 2 = [] := by
  refine ⟨(boundary_lookups_safe [str "a", str "b"] []).1, ?_⟩
  have h := (boundary_lookups_safe [str "a", str "b"] []).2.1
  simpa using h

/-! ## Restructurer lemmas -/

/-- Unfolding of the post-processor loop on a cons cell. -/
theorem processAux_cons (s : RState) (l : Line) (rest : List Line) :
    processAux s (l :: rest) = processAux (stepR s l (headOrNil rest)) rest :=
  rfl

/-- Plain content does not change the list-node count. -/
theorem countDl_cons_str (t : Line) (items : List RItem) :
    countDl (RItem.strItem t :: items) = countDl items := by
  simp [countDl]

/-- A list node adds one to the list-node count. -/
theorem countDl_cons_dl (t : Line) (ds : List Line) (items : List RItem) :
    countDl (RItem.dlItem t ds :: items) = countDl items + 1 := by
  simp [countDl]

/-- Appending a definition body to an open list node keeps the count. -/
theorem countDl_appendDD (items : List RItem) (d : Line) :
    countDl (appendDD items d) = countDl items := by
  unfold appendDD
  split
  · simp [countDl]
  · rfl

/-- One restructurer step never removes list nodes. -/
theorem countDl_stepR_mono (s : RState) (a b : Line) :
    countDl s.revItems ≤ countDl (stepR s a b).revItems := by
  unfold stepR
  dsimp only
  split
  · split
    · split
      · simp [countDl_appendDD]
      · simp [countDl_cons_dl]
    · split <;> simp [countDl_cons_str]
  · split
    · split <;> simp [countDl_cons_str]
    · split <;> simp [countDl_cons_str]

/-- The whole pass never removes list nodes. -/
theorem countDl_processAux_mono :
    ∀ (ls : List Line) (s : RState),
      countDl s.revItems ≤ countDl (processAux s ls).revItems := by
  intro ls
  induction ls with
  | nil => intro s; exact le_refl _
  | cons l rest ih =>
    intro s
    rw [processAux_cons]
    exact le_trans (countDl_stepR_mono s l (headOrNil rest)) (ih _)

/-- Step on a definition-pattern line with no pending term: the line is
flushed as plain content with the separator re-appended. -/
theorem stepR_ct_none_def (s : RState) (a b : Line)
    (hct : s.currentTerm = none) (hinv : s.invalidate = false)
    (hdm : (matchDef3 (jsTrim a)).isSome = true) :
    stepR s a b =
      ⟨RItem.strItem (jsTrim a ++ brStr) :: s.revItems, none, s.dlOpen, false⟩ := by
  rcases heq : matchDef3 (jsTrim a) with _ | ⟨ws, mk, body⟩
  · rw [heq] at hdm
    simp at hdm
  unfold stepR
  dsimp only
  rw [heq, hinv, hct]

/-- Step on a non-definition line whose successor matches the definition
pattern and which is not excluded: it becomes the pending term. -/
theorem stepR_ct_none_term (s : RState) (a b : Line)
    (hct : s.currentTerm = none) (hinv : s.invalidate = false)
    (hdm : (matchDef3 (jsTrim a)).isSome = false)
    (htc : ((matchDef3 (jsTrim b)).isSome && !isNotTermR (jsTrim a)) = true) :
    stepR s a b = ⟨s.revItems, some (jsTrim a), false, false⟩ := by
  rcases heq : matchDef3 (jsTrim a) with _ | ⟨ws, mk, body⟩
  · unfold stepR
    dsimp only
    rw [heq, hinv, hct]
    dsimp only
    have hcond : ((matchDef3 (jsTrim b)).isSome && !isNotTermR (jsTrim a) &&
        !false) = true := by
      simpa using htc
    rw [if_pos hcond]
  · rw [heq] at hdm
    simp at hdm

/-- Step on any other line with no pending term: plain flush. -/
theorem stepR_ct_none_other (s : RState) (a b : Line)
    (hct : s.currentTerm = none) (hinv : s.invalidate = false)
    (hdm : (matchDef3 (jsTrim a)).isSome = false)
    (htc : ((matchDef3 (jsTrim b)).isSome && !isNotTermR (jsTrim a)) = false) :
    stepR s a b =
      ⟨RItem.strItem (jsTrim a ++ brStr) :: s.revItems, none, false, false⟩ := by
  rcases heq : matchDef3 (jsTrim a) with _ | ⟨ws, mk, body⟩
  · unfold stepR
    dsimp only
    rw [heq, hinv, hct]
    dsimp only
    have hcond : ((matchDef3 (jsTrim b)).isSome && !isNotTermR (jsTrim a) &&
        !false) = false := by
      simpa using htc
    rw [if_neg (ne_of_eq_of_ne hcond Bool.false_ne_true)]
  · rw [heq] at hdm
    simp at hdm

/-- Step on a definition-pattern line with a pending term, closed list
node and a clean (non-footnote) body: a new list node is created. -/
theorem stepR_ct_some_def_clean (s : RState) (a b t : Line)
    (ws : Line) (mk : Char) (body : Line)
    (hct : s.currentTerm = some t) (hinv : s.invalidate = false)
    (hdo : s.dlOpen = false)
    (heq : matchDef3 (jsTrim a) = some (ws, mk, body))
    (hfn : containsSubstr footnoteBackref body = false) :
    stepR s a b = ⟨RItem.dlItem t [body] :: s.revItems, some t, true, false⟩ := by
  unfold stepR
  dsimp only
  rw [heq, hinv, hct]
  dsimp only
  rw [hfn]
  dsimp only
  rw [hdo]
  simp

/-- Step on a definition-pattern line whose body carries the
footnote-backreference markup: the pending term and the line are both
flushed as plain content and the pairing is reset. -/
theorem stepR_ct_some_def_footnote (s : RState) (a b t : Line)
    (ws : Line) (mk : Char) (body : Line)
    (hct : s.currentTerm = some t) (hinv : s.invalidate = false)
    (heq : matchDef3 (jsTrim a) = some (ws, mk, body))
    (hfn : containsSubstr footnoteBackref body = true) :
    stepR s a b =
      ⟨RItem.strItem (jsTrim a ++ brStr) :: RItem.strItem (t ++ brStr) ::
        s.revItems, none, s.dlOpen, false⟩ := by
  unfold stepR
  dsimp only
  rw [heq, hinv, hct]
  dsimp only
  rw [hfn]

/-- The normal form of a zero-list-node run: starting with no pending term
and no invalidation, if the pass creates no list node then every line is
emitted, in order, as its trimmed text with the separator re-appended, and
the pass ends with no pending term and no invalidation. -/
theorem processAux_zero_dl :
    ∀ (ls : List Line) (s : RState),
      s.currentTerm = none → s.invalidate = false →
      countDl (processAux s ls).revItems = countDl s.revItems →
      (processAux s ls).revItems =
        (ls.map fun l => RItem.strItem (jsTrim l ++ brStr)).reverse ++
          s.revItems ∧
      (processAux s ls).currentTerm = none ∧
      (processAux s ls).invalidate = false
  | [], s, hct, hinv, _ => ⟨by simp [processAux], hct, hinv⟩
  | [l], s, hct, hinv, _ => by
    by_cases hdm : (matchDef3 (jsTrim l)).isSome = true
    · have hstep := stepR_ct_none_def s l (headOrNil []) hct hinv hdm
      rw [processAux_cons, hstep]
      exact ⟨by simp [processAux], rfl, rfl⟩
    · have hdm2 : (matchDef3 (jsTrim l)).isSome = false := by
        simpa using hdm
      have htc : ((matchDef3 (jsTrim (headOrNil ([] : List Line)))).isSome &&
          !isNotTermR (jsTrim l)) = false := by
        have h0 : matchDef3 (jsTrim (headOrNil ([] : List Line))) = none := rfl
        rw [h0]
        rfl
      have hstep := stepR_ct_none_other s l (headOrNil []) hct hinv hdm2 htc
      rw [processAux_cons, hstep]
      exact ⟨by simp [processAux], rfl, rfl⟩
  | l :: r :: rest2, s, hct, hinv, hcount => by
    by_cases hdm : (matchDef3 (jsTrim l)).isSome = true
    · have hstep := stepR_ct_none_def s l (headOrNil (r :: rest2)) hct hinv hdm
      rw [processAux_cons, hstep] at hcount ⊢
      obtain ⟨hitems, hct2, hinv2⟩ := processAux_zero_dl (r :: rest2)
        ⟨RItem.strItem (jsTrim l ++ brStr) :: s.revItems, none, s.dlOpen,
          false⟩ rfl rfl
        (by rw [hcount]; exact (countDl_cons_str _ _).symm)
      refine ⟨?_, hct2, hinv2⟩
      rw [hitems]
      simp
    · have hdm2 : (matchDef3 (jsTrim l)).isSome = false := by
        simpa using hdm
      by_cases htc : ((matchDef3 (jsTrim (headOrNil (r :: rest2)))).isSome &&
          !isNotTermR (jsTrim l)) = true
      · -- l becomes the pending term; r is a definition-pattern line
        have hstep1 := stepR_ct_none_term s l (headOrNil (r :: rest2)) hct hinv
          hdm2 htc
        have hr : (matchDef3 (jsTrim r)).isSome = true := by
          have h12 : (matchDef3 (jsTrim (headOrNil (r :: rest2)))).isSome =
              true ∧ (!isNotTermR (jsTrim l)) = true := by
            simpa using htc
          exact h12.1
        obtain ⟨⟨ws2, mk2, body2⟩, heq2⟩ :
            ∃ p, matchDef3 (jsTrim r) = some p := by
          rcases hx : matchDef3 (jsTrim r) with _ | p
          · rw [hx] at hr
            simp at hr
          · exact ⟨p, rfl⟩
        by_cases hfn : containsSubstr footnoteBackref body2 = true
        · -- the pair is invalidated: term and line are flushed
          have hstep2 := stepR_ct_some_def_footnote
            ⟨s.revItems, some (jsTrim l), false, false⟩ r (headOrNil rest2)
            (jsTrim l) ws2 mk2 body2 rfl rfl heq2 hfn
          rw [processAux_cons, hstep1, processAux_cons, hstep2]
            at hcount ⊢
          obtain ⟨hitems, hct2, hinv2⟩ := processAux_zero_dl rest2
            ⟨RItem.strItem (jsTrim r ++ brStr) ::
              RItem.strItem (jsTrim l ++ brStr) :: s.revItems, none, false,
              false⟩ rfl rfl
            (by rw [hcount, countDl_cons_str, countDl_cons_str])
          refine ⟨?_, hct2, hinv2⟩
          rw [hitems]
          simp
        · -- a list node would be created: impossible under zero nodes
          exfalso
          have hfn2 : containsSubstr footnoteBackref body2 = false := by
            simpa using hfn
          have hstep2 := stepR_ct_some_def_clean
            ⟨s.revItems, some (jsTrim l), false, false⟩ r (headOrNil rest2)
            (jsTrim l) ws2 mk2 body2 rfl rfl rfl heq2 hfn2
          rw [processAux_cons, hstep1, processAux_cons, hstep2] at hcount
          have hmono := countDl_processAux_mono rest2
            ⟨RItem.dlItem (jsTrim l) [body2] :: s.revItems, some (jsTrim l),
              true, false⟩
          rw [hcount] at hmono
          have hdl : countDl (RItem.dlItem (jsTrim l) [body2] :: s.revItems) =
              countDl s.revItems + 1 := countDl_cons_dl _ _ _
          simp only [hdl] at hmono
          omega
      · have htc2 : ((matchDef3 (jsTrim (headOrNil (r :: rest2)))).isSome &&
            !isNotTermR (jsTrim l)) = false := by
          simpa using htc
        have hstep := stepR_ct_none_other s l (headOrNil (r :: rest2)) hct hinv
          hdm2 htc2
        rw [processAux_cons, hstep] at hcount ⊢
        obtain ⟨hitems, hct2, hinv2⟩ := processAux_zero_dl (r :: rest2)
          ⟨RItem.strItem (jsTrim l ++ brStr) :: s.revItems, none, false,
            false⟩ rfl rfl
          (by rw [hcount]; exact (countDl_cons_str _ _).symm)
        refine ⟨?_, hct2, hinv2⟩
        rw [hitems]
        simp

/-- Reversal preserves the list-node count. -/
theorem countDl_reverse (items : List RItem) :
    countDl items.reverse = countDl items := by
  simp [countDl, List.filter_reverse]

/-! ## Claim C6 (frame effect of the restructurer) -/

/-- C6, counterexample: a one-line block with no marker lines produces
zero list nodes and is nevertheless rewritten — the output gains a
trailing separator. -/
theorem restructurer_rewrites_plain_block :
    countDl (restructureLines (splitBr (str "hello"))) = 0 ∧
    restructureHTML (str "hello") = str "hello<br>" ∧
    restructureHTML (str "hello") ≠ str "hello" := by
  refine ⟨by decide, by decide, by decide⟩

/-- Shared consequence of a zero-list-node run: the items are the trimmed
lines with the separator re-appended, and the pass ends with no pending
term and no invalidation. -/
theorem restructure_zero_dl (ls : List Line)
    (h : countDl (restructureLines ls) = 0) :
    restructureLines ls =
      (ls.map fun l => RItem.strItem (jsTrim l ++ brStr)) ∧
    (processAux ⟨[], none, false, false⟩ ls).currentTerm = none ∧
    (processAux ⟨[], none, false, false⟩ ls).invalidate = false := by
  have h0 : countDl (processAux ⟨[], none, false, false⟩ ls).revItems =
      countDl (⟨[], none, false, false⟩ : RState).revItems := by
    have hr : countDl (processAux ⟨[], none, false, false⟩ ls).revItems =
        countDl (restructureLines ls) := by
      unfold restructureLines
      rw [countDl_reverse]
    rw [hr, h]
    rfl
  obtain ⟨hitems, hct, hinv⟩ := processAux_zero_dl ls ⟨[], none, false, false⟩
    rfl rfl h0
  refine ⟨?_, hct, hinv⟩
  unfold restructureLines
  rw [hitems]
  simp

/-- Rendering passthrough items concatenates their contents. -/
theorem renderItems_map_strItem (ls : List Line) :
    renderItems (ls.map fun l => RItem.strItem (jsTrim l ++ brStr)) =
      (ls.map fun l => jsTrim l ++ brStr).flatten := by
  simp [renderItems, renderItem, List.map_map]
  rfl

/-- Rendering the zero-list-node items gives the trimmed lines joined with
the separator re-appended after each. -/
theorem restructure_zero_dl_render (ls : List Line)
    (h : countDl (restructureLines ls) = 0) :
    renderItems (restructureLines ls) =
      (ls.map fun l => jsTrim l ++ brStr).flatten := by
  rw [(restructure_zero_dl ls h).1]
  exact renderItems_map_strItem ls

/-- C6, amended: a block producing zero list nodes keeps its lines in
order as plain passthrough content, but each line is trimmed and gets the
separator re-appended (including after the last line); the output equals
the input only up to that normalization, not exactly. -/
theorem zero_list_nodes_output_shape (ls : List Line)
    (h : countDl (restructureLines ls) = 0) :
    restructureLines ls =
      (ls.map fun l => RItem.strItem (jsTrim l ++ brStr)) ∧
    renderItems (restructureLines ls) =
      (ls.map fun l => jsTrim l ++ brStr).flatten :=
  ⟨(restructure_zero_dl ls h).1, restructure_zero_dl_render ls h⟩

/-- C6 witness: the amended statement on a concrete block. -/
theorem zero_list_nodes_output_shape_witness :
    restructureLines [str "hello"] =
      ([str "hello"].map fun l => RItem.strItem (jsTrim l ++ brStr)) ∧
    renderItems (restructureLines [str "hello"]) =
      ([str "hello"].map fun l => jsTrim l ++ brStr).flatten :=
  zero_list_nodes_output_shape [str "hello"] (by decide)

/-! ## Splitting lemmas for re-application (C7) -/

/-- A `<br>` prefix survives appending. -/
theorem isBrAt_append {x : Line} (y : Line) (h : isBrAt x = true) :
    isBrAt (x ++ y) = true := by
  rw [isBrAt, List.isPrefixOf_iff_prefix] at h ⊢
  exact h.trans (List.prefix_append x y)

/-- The separator is at the head of `brStr ++ t`. -/
theorem isBrAt_br_append (t : Line) : isBrAt (brStr ++ t) = true := by
  rw [isBrAt, List.isPrefixOf_iff_prefix]
  exact List.prefix_append brStr t

/-- Characterization of `hasBr` by an explicit occurrence. -/
theorem hasBr_iff (x : Line) :
    hasBr x = true ↔ ∃ u v, x = u ++ brStr ++ v := by
  constructor
  · intro h
    induction x with
    | nil => simp [hasBr] at h
    | cons c rest ih =>
      rw [hasBr] at h
      rcases Bool.or_eq_true_iff.mp h with h1 | h1
      · rw [isBrAt, List.isPrefixOf_iff_prefix] at h1
        obtain ⟨v, hv⟩ := h1
        exact ⟨[], v, hv.symm⟩
      · obtain ⟨u, v, huv⟩ := ih h1
        exact ⟨c :: u, v, by rw [huv]; rfl⟩
  · rintro ⟨u, v, rfl⟩
    induction u with
    | nil =>
      simp only [List.nil_append]
      rw [show brStr ++ v = '<' :: ('b' :: 'r' :: '>' :: v) from rfl]
      rw [hasBr]
      rw [show ('<' :: ('b' :: 'r' :: '>' :: v)) = brStr ++ v from rfl]
      rw [isBrAt_br_append]
      rfl
    | cons c u2 ih =>
      rw [show (c :: u2) ++ brStr ++ v = c :: (u2 ++ brStr ++ v) from rfl]
      rw [hasBr, ih, Bool.or_true]

/-- Trimming cannot create a separator occurrence. -/
theorem hasBr_jsTrim_false {p : Line} (h : hasBr p = false) :
    hasBr (jsTrim p) = false := by
  rcases hb : hasBr (jsTrim p)
  · rfl
  exfalso
  obtain ⟨u, v, huv⟩ := (hasBr_iff _).mp hb
  obtain ⟨A, B, hdecomp, _, _⟩ := jsTrim_decomp p
  rw [huv] at hdecomp
  have hocc : p = (A ++ u) ++ brStr ++ (v ++ B) := by
    rw [hdecomp]
    simp
  have hbp : hasBr p = true := (hasBr_iff p).mpr ⟨A ++ u, v ++ B, hocc⟩
  rw [hbp] at h
  simp at h

/-- Scanner step: the separator at the head emits the accumulated piece. -/
theorem splitBrAux_br (rest : Line) (acc : List Char) :
    splitBrAux (brStr ++ rest) acc = acc.reverse :: splitBrAux rest [] := rfl

/-- Scanner step: a non-separator head is accumulated. -/
theorem splitBrAux_not_br (c : Char) (rest : Line) (acc : List Char)
    (h : isBrAt (c :: rest) = false) :
    splitBrAux (c :: rest) acc = splitBrAux rest (c :: acc) := by
  rw [splitBrAux.eq_def]
  split
  · rename_i heq
    simp at heq
  · rename_i rest4 heq
    rw [show ((c : Char) :: rest = '<' :: 'b' :: 'r' :: '>' :: rest4) =
      (c :: rest = brStr ++ rest4) from rfl] at heq
    rw [heq, isBrAt_br_append] at h
    simp at h
  · rename_i c2 rest2 hnomatch heq
    injection heq with h1 h2
    subst h1
    subst h2
    rfl

/-- The head test on a four-or-more-character line only inspects the first
four characters. -/
theorem isBrAt_cons4 (x y z w : Char) (r : Line) :
    isBrAt (x :: y :: z :: w :: r) =
      (('<' == x) && (('b' == y) && (('r' == z) && ('>' == w)))) := by
  simp [isBrAt, brStr, str, List.isPrefixOf]

/-- Junction safety: appending the separator and a tail to a line that
does not itself start with the separator cannot make it start with the
separator (no partial overlap is possible). -/
theorem isBrAt_append_br_false (a t : Line) (hne : a ≠ [])
    (h : isBrAt a = false) : isBrAt (a ++ brStr ++ t) = false := by
  rcases a with _ | ⟨x, _ | ⟨y, _ | ⟨z, _ | ⟨w, r⟩⟩⟩⟩
  · exact absurd rfl hne
  · show isBrAt (x :: '<' :: 'b' :: 'r' :: ('>' :: t)) = false
    rw [isBrAt_cons4]
    simp
  · show isBrAt (x :: y :: '<' :: 'b' :: ('r' :: '>' :: t)) = false
    rw [isBrAt_cons4]
    simp
  · show isBrAt (x :: y :: z :: '<' :: ('b' :: 'r' :: '>' :: t)) = false
    rw [isBrAt_cons4]
    simp
  · show isBrAt (x :: y :: z :: w :: (r ++ brStr ++ t)) = false
    rw [isBrAt_cons4]
    rw [isBrAt_cons4] at h
    exact h

/-- An accumulated piece satisfying the scan invariant has no separator. -/
theorem hasBr_of_scan_inv (acc : List Char) (l : Line)
    (hinv : ∀ k, k < acc.reverse.length →
      isBrAt (acc.reverse.drop k ++ l) = false) :
    hasBr acc.reverse = false := by
  rcases hb : hasBr acc.reverse
  · rfl
  exfalso
  obtain ⟨u, v, huv⟩ := (hasBr_iff _).mp hb
  have h4 : brStr.length = 4 := rfl
  have hk : u.length < acc.reverse.length := by
    rw [huv]
    simp only [List.length_append, h4]
    omega
  have hdrop : acc.reverse.drop u.length = brStr ++ v := by
    rw [huv, List.append_assoc]
    exact List.drop_left u (brStr ++ v)
  have hfalse := hinv u.length hk
  rw [hdrop, List.append_assoc, isBrAt_br_append] at hfalse
  simp at hfalse

/-- Every piece the scanner emits is free of the separator. -/
theorem splitBrAux_pieces :
    ∀ (n : Nat) (l : List Char) (acc : List Char), l.length ≤ n →
      (∀ k, k < acc.reverse.length →
        isBrAt (acc.reverse.drop k ++ l) = false) →
      ∀ p ∈ splitBrAux l acc, hasBr p = false := by
  intro n
  induction n with
  | zero =>
    intro l acc hlen hinv p hp
    have hl : l = [] := List.length_eq_zero.mp (Nat.le_zero.mp hlen)
    subst hl
    have hp2 : p = acc.reverse := by
      simpa [splitBrAux] using hp
    subst hp2
    exact hasBr_of_scan_inv acc [] hinv
  | succ n ih =>
    intro l acc hlen hinv p hp
    rcases l with _ | ⟨c, rest⟩
    · have hp2 : p = acc.reverse := by
        simpa [splitBrAux] using hp
      subst hp2
      exact hasBr_of_scan_inv acc [] hinv
    by_cases hbr : isBrAt (c :: rest) = true
    · obtain ⟨rest4, hrest4⟩ : ∃ rest4, c :: rest = brStr ++ rest4 := by
        rw [isBrAt, List.isPrefixOf_iff_prefix] at hbr
        obtain ⟨v, hv⟩ := hbr
        exact ⟨v, hv.symm⟩
      rw [hrest4, splitBrAux_br] at hp
      rcases List.mem_cons.mp hp with rfl | hp2
      · exact hasBr_of_scan_inv acc (c :: rest) hinv
      · refine ih rest4 [] ?_ ?_ p hp2
        · have hlen2 := congrArg List.length hrest4
          rw [List.length_append] at hlen2
          rw [show brStr.length = 4 from rfl] at hlen2
          simp at hlen2 hlen
          omega
        · intro k hk
          simp at hk
    · have hbr2 : isBrAt (c :: rest) = false := by
        simpa using hbr
      rw [splitBrAux_not_br c rest acc hbr2] at hp
      refine ih rest (c :: acc) ?_ ?_ p hp
      · simp at hlen
        omega
      · intro k hk
        rw [List.reverse_cons] at hk ⊢
        simp at hk
        rcases Nat.lt_or_ge k acc.reverse.length with hlt | hge
        · rw [List.drop_append_of_le_length (Nat.le_of_lt
            (by simpa using hlt))]
          rw [List.append_assoc]
          exact hinv k (by simpa using hlt)
        · have hkeq : k = acc.reverse.length := by
            simp at hge ⊢
            omega
          subst hkeq
          rw [List.drop_left]
          exact hbr2

/-- Every piece of a split is free of the separator. -/
theorem splitBr_pieces (l : Line) :
    ∀ p ∈ splitBr l, hasBr p = false := by
  intro p hp
  refine splitBrAux_pieces l.length l [] le_rfl ?_ p hp
  intro k hk
  simp at hk

/-- Splitting a separator-free piece followed by the separator peels off
exactly that piece. -/
theorem splitBrAux_flush (a : Line) :
    ∀ (acc : List Char) (t : Line), hasBr a = false →
      splitBrAux (a ++ brStr ++ t) acc = (acc.reverse ++ a) :: splitBr t := by
  induction a with
  | nil =>
    intro acc t _
    rw [List.nil_append, splitBrAux_br]
    simp [splitBr]
  | cons c a2 ih =>
    intro acc t h
    rw [hasBr] at h
    have hc := Bool.or_eq_false_iff.mp h
    have hjunction : isBrAt ((c :: a2) ++ brStr ++ t) = false :=
      isBrAt_append_br_false (c :: a2) t (by simp) hc.1
    rw [show (c :: a2) ++ brStr ++ t = c :: (a2 ++ brStr ++ t) from rfl]
      at hjunction ⊢
    rw [splitBrAux_not_br c _ acc hjunction]
    rw [ih (c :: acc) t hc.2]
    simp

/-- Splitting the concatenation of separator-free pieces each followed by
the separator recovers the pieces, plus one trailing empty piece. -/
theorem splitBr_flatten_map (ps : List Line)
    (h : ∀ p ∈ ps, hasBr p = false) :
    splitBr ((ps.map fun p => p ++ brStr).flatten) = ps ++ [[]] := by
  induction ps with
  | nil => rfl
  | cons p rest ih =>
    simp only [List.map_cons, List.flatten_cons]
    unfold splitBr
    rw [splitBrAux_flush p [] _ (h p (by simp))]
    rw [List.reverse_nil, List.nil_append]
    rw [ih (fun q hq => h q (by simp [hq]))]
    rfl

/-- The restructurer step only depends on the trimmed current line. -/
theorem stepR_trim_left (s : RState) (a b : Line) :
    stepR s (jsTrim a) b = stepR s a b := by
  unfold stepR
  rw [jsTrim_idem]

/-- The restructurer step only depends on the trimmed next line. -/
theorem stepR_trim_right (s : RState) (a b : Line) :
    stepR s a (jsTrim b) = stepR s a b := by
  unfold stepR
  rw [jsTrim_idem]

/-- Lookahead commutes with trimming every line. -/
theorem headOrNil_map_trim (ls : List Line) :
    headOrNil (ls.map jsTrim) = jsTrim (headOrNil ls) := by
  cases ls
  · rfl
  · rfl

/-- The pass only depends on the trimmed lines. -/
theorem processAux_map_trim :
    ∀ (ls : List Line) (s : RState),
      processAux s (ls.map jsTrim) = processAux s ls := by
  intro ls
  induction ls with
  | nil => intro s; rfl
  | cons l rest ih =>
    intro s
    rw [List.map_cons, processAux_cons, processAux_cons]
    rw [headOrNil_map_trim, stepR_trim_left, stepR_trim_right]
    exact ih _

/-- A trailing blank line does not change the lookahead of earlier lines:
processing `xs ++ [blank]` is processing `xs` and then one extra step. -/
theorem headOrNil_append_blank (xs2 : List Line) :
    headOrNil (xs2 ++ [([] : Line)]) = headOrNil xs2 ∨ xs2 = [] := by
  cases xs2
  · exact Or.inr rfl
  · exact Or.inl rfl

/-- Appending one blank line appends one step to the pass. -/
theorem processAux_append_blank :
    ∀ (xs : List Line) (s : RState),
      processAux s (xs ++ [([] : Line)]) = stepR (processAux s xs) [] [] := by
  intro xs
  induction xs with
  | nil => intro s; rfl
  | cons x xs2 ih =>
    intro s
    rw [List.cons_append, processAux_cons, processAux_cons]
    rcases headOrNil_append_blank xs2 with hh | hh
    · rw [hh]
      exact ih _
    · subst hh
      exact ih _

/-- Rendering distributes over concatenation of item lists. -/
theorem renderItems_append (xs ys : List RItem) :
    renderItems (xs ++ ys) = renderItems xs ++ renderItems ys := by
  simp [renderItems]

/-! ## Claim C7 (idempotence of the restructurer) -/

/-- C7, counterexample: the restructurer applied to its own output
changes it again — re-processing `hello<br>` yields `hello<br><br>`. -/
theorem restructurer_not_idempotent :
    restructureHTML (restructureHTML (str "hello")) = str "hello<br><br>" ∧
    restructureHTML (restructureHTML (str "hello")) ≠
      restructureHTML (str "hello") := by
  refine ⟨by decide, by decide⟩

/-- C7, amended: the restructuring pass is not idempotent — for every
block whose restructuring produces zero list nodes, re-applying the pass
to its output appends one more separator (the split of the output has one
extra trailing empty line, which is flushed as an extra `<br>`), so the
output is never a fixed point. -/
theorem reapplication_appends_br (s : Line)
    (h : countDl (restructureLines (splitBr s)) = 0) :
    restructureHTML (restructureHTML s) = restructureHTML s ++ brStr ∧
    restructureHTML (restructureHTML s) ≠ restructureHTML s := by
  obtain ⟨hlines, hct, hinv⟩ := restructure_zero_dl (splitBr s) h
  have hout : restructureHTML s =
      ((splitBr s).map fun l => jsTrim l ++ brStr).flatten :=
    restructure_zero_dl_render (splitBr s) h
  have hsplit : splitBr (restructureHTML s) =
      ((splitBr s).map jsTrim) ++ [[]] := by
    rw [hout]
    rw [show ((splitBr s).map fun l => jsTrim l ++ brStr) =
      (((splitBr s).map jsTrim).map fun p => p ++ brStr) from by
        simp [List.map_map]]
    apply splitBr_flatten_map
    intro p hp
    obtain ⟨q, hq, rfl⟩ := List.mem_map.mp hp
    exact hasBr_jsTrim_false (splitBr_pieces s q hq)
  have hmap2 : ((splitBr s).map jsTrim) ++ [[]] =
      ((splitBr s) ++ [([] : Line)]).map jsTrim := by
    simp [jsTrim_nil]
  have hstep := stepR_ct_none_other
    (processAux ⟨[], none, false, false⟩ (splitBr s)) [] [] hct hinv
    (by decide) (by decide)
  have hrev : (processAux ⟨[], none, false, false⟩ (splitBr s)).revItems =
      ((splitBr s).map fun l => RItem.strItem (jsTrim l ++ brStr)).reverse := by
    have hrl := hlines
    unfold restructureLines at hrl
    rw [← hrl, List.reverse_reverse]
  have hsecond : restructureHTML (restructureHTML s) =
      restructureHTML s ++ brStr := by
    rw [show restructureHTML (restructureHTML s) =
      renderItems (restructureLines (splitBr (restructureHTML s))) from rfl]
    rw [hsplit, hmap2]
    unfold restructureLines
    rw [processAux_map_trim, processAux_append_blank, hstep]
    dsimp only
    rw [List.reverse_cons, renderItems_append, hrev, List.reverse_reverse]
    rw [show renderItems [RItem.strItem (jsTrim [] ++ brStr)] = brStr from rfl]
    rw [renderItems_map_strItem, hout]
  refine ⟨hsecond, ?_⟩
  rw [hsecond]
  intro heq
  have hlen := congrArg List.length heq
  rw [List.length_append] at hlen
  simp [brStr, str] at hlen

/-- C7 witness: the amended statement on a concrete block. -/
theorem reapplication_appends_br_witness :
    restructureHTML (restructureHTML (str "Plain text")) =
      restructureHTML (str "Plain text") ++ brStr ∧
    restructureHTML (restructureHTML (str "Plain text")) ≠
      restructureHTML (str "Plain text") :=
  reapplication_appends_br (str "Plain text") (by decide)

end DefList
